import Mathlib

/-!
Verification of the contact-enrichment pipeline of the linkedin-crawler
repository (`src/contactScraper.ts` and its variants).  The TypeScript
source is shallowly embedded: pure fragments become Lean functions, the
asynchronous mutex becomes an explicit transition system, and the external
collaborators (the Playwright page fetcher and the npm `email-addresses`
parser) become explicit oracles passed as parameters, exactly at the
points where the source calls out to them.
-/

/- Configuration constants of `contactScraper.ts`. -/

def PAGE_LOAD_TIMEOUT : Nat := 30000

def RETRY_DELAY : Nat := 5000

def MAX_RETRIES : Nat := 2

def SCRAPING_TIMEOUT : Nat := 60000

def MAX_CONCURRENT_PAGES : Nat := 5

/- Data model: `ContactInfo`, `Company`, `LinkedInContact` interfaces. -/

structure ContactInfo where
  emails : List String
  phones : List String
deriving DecidableEq, Repr

structure Company where
  name : String
  url : String
  website : String
  contactInfo : Option ContactInfo
deriving DecidableEq, Repr

structure LinkedInContact where
  name : String
  title : String
  company : Company
  location : String
  profileUrl : String
  page : Nat
  crawledDateTime : Option (List String) := none
deriving DecidableEq, Repr

/- The `Mutex` class: a boolean `locked` flag and a FIFO list of pending
   resolvers.  Waiters are identified by numeric ids.  `acquireStep`
   returns the new mutex and whether the caller was granted the lock
   immediately (`acquire` returning without suspending); `releaseStep`
   returns the new mutex and the waiter woken by `queue.shift()`, if any. -/

structure Mutex where
  locked : Bool
  queue : List Nat
deriving DecidableEq, Repr

def Mutex.acquireStep (m : Mutex) (c : Nat) : Mutex × Bool :=
  if m.locked then ({ m with queue := m.queue ++ [c] }, false)
  else ({ m with locked := true }, true)

def Mutex.releaseStep (m : Mutex) : Mutex × Option Nat :=
  match m.queue with
  | w :: ws => ({ m with queue := ws }, some w)
  | [] => ({ m with locked := false }, none)

/- Protocol-level system state around the mutex.  `holders` is the set of
   callers currently owning the lock (granted and not yet released),
   `suspended` the log of callers whose `acquire` suspended, in order, and
   `granted` the log of waiters woken by `release`, in order.  The mutex
   component evolves exactly by `acquireStep`/`releaseStep`; `release` is
   only ever performed by a current holder, which is how the source uses
   the class (`acquire` … `try/finally release`). -/

structure MutexSys where
  mtx : Mutex
  holders : List Nat
  suspended : List Nat
  granted : List Nat
deriving DecidableEq, Repr

def initSys : MutexSys := ⟨⟨false, []⟩, [], [], []⟩

def sysAcquire (s : MutexSys) (c : Nat) : MutexSys :=
  { mtx := (s.mtx.acquireStep c).1
    holders := if (s.mtx.acquireStep c).2 then s.holders ++ [c] else s.holders
    suspended := if (s.mtx.acquireStep c).2 then s.suspended else s.suspended ++ [c]
    granted := s.granted }

def sysRelease (s : MutexSys) (c : Nat) : MutexSys :=
  { mtx := s.mtx.releaseStep.1
    holders := s.holders.erase c ++ s.mtx.releaseStep.2.toList
    suspended := s.suspended
    granted := s.granted ++ s.mtx.releaseStep.2.toList }

inductive SysStep : MutexSys → MutexSys → Prop where
  | acquire (s : MutexSys) (c : Nat) : SysStep s (sysAcquire s c)
  | release (s : MutexSys) (c : Nat) (hc : c ∈ s.holders) : SysStep s (sysRelease s c)

inductive Reachable : MutexSys → Prop where
  | init : Reachable initSys
  | step {s t : MutexSys} : Reachable s → SysStep s t → Reachable t

def SysInv (s : MutexSys) : Prop :=
  (s.mtx.locked = false → s.mtx.queue = [] ∧ s.holders = [])
  ∧ (s.mtx.locked = true → s.holders.length = 1)
  ∧ s.suspended = s.granted ++ s.mtx.queue

/- Generic helpers used by the regex embeddings.  `takeRun p l` splits `l`
   into its maximal prefix of characters satisfying `p` and the rest — the
   behaviour of a greedy character-class star.  `splitDigits k l` consumes
   exactly `k` leading digits (`\d{k}`).  `dedupKeepFirst` is the JS
   `[...new Set(xs)]` idiom: first occurrences, in order. -/

def takeRun (p : Char → Bool) : List Char → List Char × List Char
  | [] => ([], [])
  | c :: rest =>
    if p c then (c :: (takeRun p rest).1, (takeRun p rest).2)
    else ([], c :: rest)

def splitDigits : Nat → List Char → Option (List Char × List Char)
  | 0, l => some ([], l)
  | _ + 1, [] => none
  | k + 1, c :: rest =>
    if c.isDigit then (splitDigits k rest).map (fun dr => (c :: dr.1, dr.2))
    else none

def firstSome {α : Type} : List (Option α) → Option α
  | [] => none
  | none :: rest => firstSome rest
  | some a :: _ => some a

def dedupKeepFirst {α : Type} [DecidableEq α] : List α → List α
  | [] => []
  | a :: l => a :: dedupKeepFirst (l.filter (fun b => b ≠ a))
termination_by l => l.length
decreasing_by
  simp only [List.length_cons]
  exact Nat.lt_succ_of_le (List.length_filter_le _ _)

/- Embedding of the phone regex
   `(?:\+?(\d{1,3}))?[-. (]*(\d{3})[-. )]*(\d{3})[-. ]*(\d{4})(?: *x\d+)?`
   with JavaScript `matchAll` semantics (leftmost match, greedy with
   backtracking, search resumes after each match).  Each separator star is
   followed by a mandatory digit group, and no separator is a digit, so a
   separator star can only succeed with its maximal run; backtracking is
   therefore confined to the optional country-code group, whose
   alternatives are enumerated in the engine's preference order. -/

def isSep1 (c : Char) : Bool := c = '-' || c = '.' || c = ' ' || c = '('

def isSep2 (c : Char) : Bool := c = '-' || c = '.' || c = ' ' || c = ')'

def isSep3 (c : Char) : Bool := c = '-' || c = '.' || c = ' '

/- `(?: *x\d+)?`: greedy optional extension.  Fewer-than-maximal spaces
   would leave a space where `x` is required, so the space run is forced. -/
def matchExt (l : List Char) : List Char × List Char :=
  match (takeRun (fun c => c = ' ') l).2 with
  | 'x' :: r2 =>
    match takeRun Char.isDigit r2 with
    | ([], _) => ([], l)
    | (ds, r3) => ((takeRun (fun c => c = ' ') l).1 ++ 'x' :: ds, r3)
  | _ => ([], l)

/- The mandatory tail `[-. (]*(\d{3})[-. )]*(\d{3})[-. ]*(\d{4})(?: *x\d+)?`
   of the phone pattern, starting after the optional country-code group. -/
def matchCore (l : List Char) : Option (List Char × List Char) :=
  match splitDigits 3 (takeRun isSep1 l).2 with
  | none => none
  | some (d1, r2) =>
    match splitDigits 3 (takeRun isSep2 r2).2 with
    | none => none
    | some (d2, r4) =>
      match splitDigits 4 (takeRun isSep3 r4).2 with
      | none => none
      | some (d3, r6) =>
        some ((takeRun isSep1 l).1 ++ d1 ++ (takeRun isSep2 r2).1 ++ d2 ++
                (takeRun isSep3 r4).1 ++ d3 ++ (matchExt r6).1,
              (matchExt r6).2)

/- `(\d{1,3})` greedy: three, two, then one digit. -/
def digitOptions (l : List Char) : List (List Char × List Char) :=
  (splitDigits 3 l).toList ++ (splitDigits 2 l).toList ++ (splitDigits 1 l).toList

/- `(?:\+?(\d{1,3}))?` alternatives, in backtracking order: with the
   optional `+`, without it, and skipping the group entirely. -/
def ccCandidates (l : List Char) : List (List Char × List Char) :=
  (match l with
   | c :: r => if c = '+' then (digitOptions r).map (fun dr => (c :: dr.1, dr.2)) else []
   | [] => [])
    ++ digitOptions l ++ [([], l)]

/- One attempt of the phone pattern anchored at the head of `l`; returns
   the matched prefix and the rest of the input. -/
def phoneMatchAt (l : List Char) : Option (List Char × List Char) :=
  firstSome ((ccCandidates l).map (fun cr =>
    (matchCore cr.2).map (fun mr => (cr.1 ++ mr.1, mr.2))))

/- `String.prototype.matchAll`: scan left to right, emit each match and
   resume after it.  Every phone match consumes at least its ten mandatory
   digits, so fuel `l.length` always suffices. -/
def phoneScan : Nat → List Char → List (List Char)
  | 0, _ => []
  | _ + 1, [] => []
  | fuel + 1, c :: rest =>
    match phoneMatchAt (c :: rest) with
    | some (m, r) => m :: phoneScan fuel r
    | none => phoneScan fuel rest

def phoneMatchAll (l : List Char) : List (List Char) := phoneScan l.length l

/- The phone pipeline of `extractContactInfo`:
   `matchAll(PHONE_REGEX) → map(m => m[0]) → filter(len ≥ 10) → new Set`. -/
def phonesFromContent (content : List Char) : List (List Char) :=
  dedupKeepFirst ((phoneMatchAll content).filter (fun m => 10 ≤ m.length))

/- Embedding of the fallback email regex
   `[a-zA-Z0-9._%+-]+@[a-zA-Z0-9.-]+\.[a-zA-Z]{2,}`.  The local part is
   forced (`@` is not a local character); the domain star `[a-zA-Z0-9.-]+`
   genuinely backtracks against the mandatory `\.`, preferring the longest
   viable prefix of its maximal run. -/

def isLocalChar (c : Char) : Bool :=
  c.isAlphanum || c = '.' || c = '_' || c = '%' || c = '+' || c = '-'

def isDomainChar (c : Char) : Bool := c.isAlphanum || c = '.' || c = '-'

/- Try cutting the maximal domain run `dom` after `k` characters: the next
   character must be the literal dot, followed by at least two letters
   (`[a-zA-Z]{2,}` greedy).  Returns the matched portion of `dom` and how
   many of its characters were consumed. -/
def domainSplitAt (dom : List Char) (k : Nat) : Option (List Char × Nat) :=
  if h : k < dom.length then
    if dom.get ⟨k, h⟩ = '.' then
      if 2 ≤ (takeRun Char.isAlpha (dom.drop (k + 1))).1.length then
        some (dom.take k ++ '.' :: (takeRun Char.isAlpha (dom.drop (k + 1))).1,
              k + 1 + (takeRun Char.isAlpha (dom.drop (k + 1))).1.length)
      else none
    else none
  else none

/- Search the cut position from longest to shortest (greedy `+`); the
   domain before the dot needs at least one character. -/
def domainSearch (dom : List Char) : Nat → Option (List Char × Nat)
  | 0 => none
  | 1 => none
  | k + 1 =>
    match domainSplitAt dom k with
    | some x => some x
    | none => domainSearch dom k

def findDomainSplit (dom : List Char) : Option (List Char × Nat) :=
  domainSearch dom dom.length

def emailMatchAt (l : List Char) : Option (List Char × List Char) :=
  if (takeRun isLocalChar l).1.isEmpty then none
  else
    match (takeRun isLocalChar l).2 with
    | '@' :: r2 =>
      match findDomainSplit (takeRun isDomainChar r2).1 with
      | none => none
      | some (dpart, consumed) =>
        some ((takeRun isLocalChar l).1 ++ '@' :: dpart,
              ((takeRun isDomainChar r2).1.drop consumed) ++ (takeRun isDomainChar r2).2)
    | _ => none

def emailScan : Nat → List Char → List (List Char)
  | 0, _ => []
  | _ + 1, [] => []
  | fuel + 1, c :: rest =>
    match emailMatchAt (c :: rest) with
    | some (m, r) => m :: emailScan fuel r
    | none => emailScan fuel rest

def emailMatchAll (l : List Char) : List (List Char) := emailScan l.length l

/- The `email-addresses` npm package is an external collaborator; its
   output is a parameter: `none` models a `null` return or a thrown
   exception (both leave `emails` empty in the source), `some ms` a match
   list whose entries carry `some addr` when the match has an `address`
   field and `none` when it is a group without one. -/
def parserAddresses (parsed : Option (List (Option (List Char)))) : List (List Char) :=
  (parsed.getD []).filterMap id

/- The email pipeline of `extractContactInfo`: structured parser first,
   regex fallback only when it produced no address, then `new Set`. -/
def emailsFromContent (parsed : Option (List (Option (List Char))))
    (content : List Char) : List (List Char) :=
  dedupKeepFirst
    (if (parserAddresses parsed).isEmpty then
      (emailMatchAll content).filter (fun m => 0 < m.length)
    else parserAddresses parsed)

/- `getPhones` in the CSV exporter (`processor.ts` variant): clean a phone
   to its digits (`trim().replace(/\D/g, '')` — trimming removes only
   non-digits, so it is absorbed by the digit filter), keep ten-digit
   strings, strip the leading `0`/`1` from eleven-digit ones, drop the
   rest. -/
def cleanPhone (s : String) : List Char := s.toList.filter Char.isDigit

def normalizePhone (s : String) : Option (List Char) :=
  if (cleanPhone s).length = 10 then some (cleanPhone s)
  else
    if (cleanPhone s).length = 11
        ∧ ((cleanPhone s).head? = some '0' ∨ (cleanPhone s).head? = some '1') then
      some (cleanPhone s).tail
    else none

/- `extractContactInfo(page, url, retryCount)`.  The Playwright fetch
   (`page.goto` + `page.content`, both raced against timers) is an
   external collaborator, modelled by an oracle `fetch` mapping the
   attempt number to `some content` or `none` for any failure in the
   try-block (navigation error, either timeout, content error).  The
   function also reports how many fetch attempts were made and how much
   retry delay was slept, so the retry policy is observable. -/

structure ExtractResult where
  info : ContactInfo
  attempts : Nat
  delayTotal : Nat
deriving DecidableEq, Repr

def extractFromContent (parsed : Option (List (Option (List Char))))
    (content : List Char) : ContactInfo :=
  { emails := (emailsFromContent parsed content).map (fun l => String.mk l)
    phones := (phonesFromContent content).map (fun l => String.mk l) }

def extractContactInfoGo (fetch : Nat → Option (List Char))
    (parsed : Nat → Option (List (Option (List Char))))
    (url : String) (retryCount : Nat) : ExtractResult :=
  if url = "" then ⟨⟨[], []⟩, 0, 0⟩
  else
    match fetch retryCount with
    | some content => ⟨extractFromContent (parsed retryCount) content, 1, 0⟩
    | none =>
      if retryCount < MAX_RETRIES then
        ⟨(extractContactInfoGo fetch parsed url (retryCount + 1)).info,
         (extractContactInfoGo fetch parsed url (retryCount + 1)).attempts + 1,
         (extractContactInfoGo fetch parsed url (retryCount + 1)).delayTotal + RETRY_DELAY⟩
      else ⟨⟨[], []⟩, 1, 0⟩
termination_by MAX_RETRIES + 1 - retryCount

def extractContactInfo (fetch : Nat → Option (List Char))
    (parsed : Nat → Option (List (Option (List Char))))
    (url : String) : ExtractResult :=
  extractContactInfoGo fetch parsed url 0

/- The per-item body of `processBatch` in `contactScraper.ts`.  `outcome`
   is the result of racing `extractContactInfo` against the 60s scraping
   timer: `some ci` when the extraction settled first, `none` when the
   timer rejected (the catch branch).  The boolean records whether
   `safeWriteFile` was called for this item. -/

def nonEmptyCI (ci : ContactInfo) : Bool :=
  0 < ci.emails.length || 0 < ci.phones.length

def setCI (item : LinkedInContact) (ci : ContactInfo) : LinkedInContact :=
  { item with company := { item.company with contactInfo := some ci } }

def processBatchItem (outcome : Option ContactInfo) (item : LinkedInContact) :
    LinkedInContact × Bool :=
  if item.company.website = "" then (item, false)
  else
    match outcome with
    | some ci => if nonEmptyCI ci then (setCI item ci, true) else (item, false)
    | none => (item, false)

/- The per-item body of `processItem` in the worker-pool variant: the
   extraction result is stored and the file rewritten unconditionally,
   and a crawl timestamp is appended. -/
def processItemWorker (now : String) (ci : ContactInfo) (item : LinkedInContact) :
    LinkedInContact × Bool :=
  ({ setCI item ci with
      crawledDateTime := some (item.crawledDateTime.getD [] ++ [now]) }, true)

/- `data.filter(item => !item.company?.contactInfo && item.company?.website)`:
   the eligibility filter seeding the work queue. -/

def eligibleB (item : LinkedInContact) : Bool :=
  item.company.contactInfo.isNone && item.company.website != ""

def itemsToProcess (data : List LinkedInContact) : List LinkedInContact :=
  data.filter eligibleB

/- The whole enrichment pass over the dataset, with per-record outcomes
   given by the oracle `res`.  Ineligible records are never handed to
   `processBatch`, so they pass through unchanged; eligible ones receive
   the `processBatchItem` treatment. -/

def enrichRecord (res : String → Option ContactInfo) (item : LinkedInContact) :
    LinkedInContact :=
  if eligibleB item then (processBatchItem (res item.company.website) item).1
  else item

def runEnrichment (res : String → Option ContactInfo)
    (data : List LinkedInContact) : List LinkedInContact :=
  data.map (enrichRecord res)

/- Network fetch attempts performed by a pass: `extractContactInfo` is
   invoked once per queued item, `att` giving its attempt count. -/
def networkOps (att : String → Nat) (data : List LinkedInContact) : Nat :=
  ((itemsToProcess data).map (fun it => att it.company.website)).sum

/- Observable effects of `processJsonFile` in the page-pool variants, in
   program order: page-pool initialization (per-session success recorded
   by the `initOk` oracle), the dataset read, fetches and dataset writes
   for queued items, and resource teardown.  When not a single session
   initializes, the function closes the browser and returns before ever
   touching the dataset file. -/

inductive Effect where
  | initPage (i : Nat) (ok : Bool)
  | readDataset
  | fetch (url : String)
  | writeDataset
  | closePage (i : Nat)
  | closeBrowser
deriving DecidableEq, Repr

def initPool (initOk : Nat → Bool) : List Nat :=
  (List.range MAX_CONCURRENT_PAGES).filter (fun i => initOk i)

def enrichEffects (data : List LinkedInContact) : List Effect :=
  (itemsToProcess data).flatMap
    (fun it => [Effect.fetch it.company.website, Effect.writeDataset])

def processJsonFileTrace (initOk : Nat → Bool) (data : List LinkedInContact) :
    List Effect :=
  ((List.range MAX_CONCURRENT_PAGES).map (fun i => Effect.initPage i (initOk i)))
    ++ (if (initPool initOk).isEmpty then [Effect.closeBrowser]
        else [Effect.readDataset] ++ enrichEffects data
              ++ (initPool initOk).map Effect.closePage ++ [Effect.closeBrowser])

/- Session assignment of the batch dispatcher in `contactScraper.ts`:
   the loop advances `i` by `MAX_CONCURRENT_PAGES`, every item of the
   batch starting at `i` is processed concurrently by `processBatch` on
   the single page `pages[i % MAX_CONCURRENT_PAGES]`.  For the item at
   queue position `j`, the batch start is `(j / MAX_CONCURRENT_PAGES) *
   MAX_CONCURRENT_PAGES`. -/

def batchStart (j : Nat) : Nat := j / MAX_CONCURRENT_PAGES * MAX_CONCURRENT_PAGES

def pageIndexFor (j : Nat) : Nat := batchStart j % MAX_CONCURRENT_PAGES

def sameBatch (j k : Nat) : Prop := j / MAX_CONCURRENT_PAGES = k / MAX_CONCURRENT_PAGES

/- Concrete fixtures used to instantiate the theorems. -/

def sampleEligible : LinkedInContact :=
  { name := "Bo"
    title := "Dev"
    company := { name := "Beta", url := "u2", website := "https://b.test", contactInfo := none }
    location := "EU"
    profileUrl := "p2"
    page := 2 }

def sampleNoSite : LinkedInContact :=
  { name := "Ada"
    title := "Eng"
    company := { name := "Acme", url := "u1", website := "", contactInfo := none }
    location := "US"
    profileUrl := "p1"
    page := 1 }

def sampleEnriched : LinkedInContact :=
  { name := "Cy"
    title := "Ops"
    company :=
      { name := "Gamma"
        url := "u3"
        website := "https://c.test"
        contactInfo := some { emails := ["a@b.co"], phones := [] } }
    location := "AS"
    profileUrl := "p3"
    page := 3 }

theorem sysInv_init : SysInv initSys := by
  refine ⟨fun _ => ⟨rfl, rfl⟩, fun h => ?_, rfl⟩
  simp [initSys] at h

theorem sysInv_step {s t : MutexSys} (hinv : SysInv s) (hstep : SysStep s t) :
    SysInv t := by
  obtain ⟨hfree, hlock, hlog⟩ := hinv
  cases hstep with
  | acquire c =>
    unfold sysAcquire
    by_cases hl : s.mtx.locked
    · have hstep1 : (s.mtx.acquireStep c).1 = { s.mtx with queue := s.mtx.queue ++ [c] } := by
        simp [Mutex.acquireStep, hl]
      have hstep2 : (s.mtx.acquireStep c).2 = false := by
        simp [Mutex.acquireStep, hl]
      refine ⟨?_, ?_, ?_⟩
      · intro h
        rw [hstep1] at h
        simp only at h
        rw [h] at hl
        simp at hl
      · intro _
        simpa [hstep2] using hlock hl
      · simp [hstep1, hstep2, hlog, List.append_assoc]
    · have hl' : s.mtx.locked = false := by simpa using hl
      obtain ⟨hq, hh⟩ := hfree hl'
      have hstep1 : (s.mtx.acquireStep c).1 = { s.mtx with locked := true } := by
        simp [Mutex.acquireStep, hl']
      have hstep2 : (s.mtx.acquireStep c).2 = true := by
        simp [Mutex.acquireStep, hl']
      refine ⟨?_, ?_, ?_⟩
      · intro h
        rw [hstep1] at h
        simp at h
      · intro _
        simp [hstep2, hh]
      · simp [hstep1, hstep2, hlog, hq]
  | release c hc =>
    unfold sysRelease
    have hne : s.holders ≠ [] := by
      intro h
      rw [h] at hc
      simp at hc
    have hl : s.mtx.locked = true := by
      by_contra h
      have hl' : s.mtx.locked = false := by
        cases hval : s.mtx.locked
        · rfl
        · exact absurd hval h
      exact hne (hfree hl').2
    have hone : s.holders.length = 1 := hlock hl
    obtain ⟨a, ha⟩ := List.length_eq_one.mp hone
    have hca : c = a := by
      rw [ha] at hc
      simpa using hc
    cases hq : s.mtx.queue with
    | cons w ws =>
      have hrel1 : s.mtx.releaseStep.1 = { s.mtx with queue := ws } := by
        simp [Mutex.releaseStep, hq]
      have hrel2 : s.mtx.releaseStep.2 = some w := by
        simp [Mutex.releaseStep, hq]
      refine ⟨?_, ?_, ?_⟩
      · intro h
        rw [hrel1] at h
        simp only at h
        rw [h] at hl
        simp at hl
      · intro _
        simp [hrel2, ha, hca, List.erase_cons_head]
      · simp [hrel1, hrel2, hlog, hq, List.append_assoc]
    | nil =>
      have hrel1 : s.mtx.releaseStep.1 = { s.mtx with locked := false } := by
        simp [Mutex.releaseStep, hq]
      have hrel2 : s.mtx.releaseStep.2 = none := by
        simp [Mutex.releaseStep, hq]
      refine ⟨?_, ?_, ?_⟩
      · intro _
        simp [hrel1, hrel2, hq, ha, hca, List.erase_cons_head]
      · intro h
        rw [hrel1] at h
        simp at h
      · simp [hrel1, hrel2, hlog, hq]

theorem sysInv_reachable {s : MutexSys} (h : Reachable s) : SysInv s := by
  induction h with
  | init => exact sysInv_init
  | step _ hstep ih => exact sysInv_step ih hstep

/- Structural lemmas about the regex building blocks. -/

theorem takeRun_append (p : Char → Bool) :
    ∀ l : List Char, (takeRun p l).1 ++ (takeRun p l).2 = l
  | [] => rfl
  | c :: rest => by
    by_cases h : p c
    · simp [takeRun, h, takeRun_append p rest]
    · simp [takeRun, h]

theorem splitDigits_spec :
    ∀ (k : Nat) (l d r : List Char), splitDigits k l = some (d, r) →
      d.length = k ∧ (∀ c ∈ d, c.isDigit = true) ∧ l = d ++ r := by
  intro k
  induction k with
  | zero =>
    intro l d r h
    simp only [splitDigits, Option.some.injEq, Prod.mk.injEq] at h
    obtain ⟨h1, h2⟩ := h
    subst h1; subst h2
    simp
  | succ n ih =>
    intro l d r h
    cases l with
    | nil => simp [splitDigits] at h
    | cons c rest =>
      simp only [splitDigits] at h
      by_cases hc : c.isDigit
      · rw [if_pos hc] at h
        cases hs : splitDigits n rest with
        | none => rw [hs] at h; simp at h
        | some dr =>
          rw [hs] at h
          simp only [Option.map_some', Option.some.injEq, Prod.mk.injEq] at h
          obtain ⟨h1, h2⟩ := h
          obtain ⟨hlen, hdig, happ⟩ := ih rest dr.1 dr.2 (by rw [hs])
          subst h1; subst h2
          refine ⟨by simp [hlen], ?_, by simp [happ]⟩
          intro x hx
          rcases List.mem_cons.mp hx with h | h
          · subst h; exact hc
          · exact hdig x h
      · rw [if_neg hc] at h
        simp at h

theorem matchExt_append (l : List Char) : (matchExt l).1 ++ (matchExt l).2 = l := by
  have hsp := takeRun_append (fun c => c = ' ') l
  unfold matchExt
  split
  next r2 h1 =>
    split
    next hd => simp
    next ds r3 hne hd =>
      have hdig := takeRun_append Char.isDigit r2
      rw [hd] at hdig
      simp only at hdig
      simp only [List.append_assoc, List.cons_append, hdig]
      rw [← h1]
      exact hsp
  next => simp

theorem matchCore_spec (l m r : List Char) (h : matchCore l = some (m, r)) :
    m ++ r = l ∧ 10 ≤ (m.filter Char.isDigit).length := by
  unfold matchCore at h
  split at h
  next => exact absurd h (by simp)
  next d1 r2 h1 =>
    split at h
    next => exact absurd h (by simp)
    next d2 r4 h2 =>
      split at h
      next => exact absurd h (by simp)
      next d3 r6 h3 =>
        simp only [Option.some.injEq, Prod.mk.injEq] at h
        obtain ⟨hm, hr⟩ := h
        obtain ⟨hl1, hd1, ha1⟩ := splitDigits_spec 3 _ d1 r2 h1
        obtain ⟨hl2, hd2, ha2⟩ := splitDigits_spec 3 _ d2 r4 h2
        obtain ⟨hl3, hd3, ha3⟩ := splitDigits_spec 4 _ d3 r6 h3
        have hs1 := takeRun_append isSep1 l
        have hs2 := takeRun_append isSep2 r2
        have hs3 := takeRun_append isSep3 r4
        have hext := matchExt_append r6
        constructor
        · rw [← hm, ← hr]
          simp only [List.append_assoc, hext]
          rw [← ha3, hs3, ← ha2, hs2, ← ha1, hs1]
        · rw [← hm]
          have f1 : d1.filter Char.isDigit = d1 := List.filter_eq_self.mpr hd1
          have f2 : d2.filter Char.isDigit = d2 := List.filter_eq_self.mpr hd2
          have f3 : d3.filter Char.isDigit = d3 := List.filter_eq_self.mpr hd3
          simp only [List.filter_append, List.length_append, f1, f2, f3]
          omega

theorem firstSome_mem {α : Type} :
    ∀ (xs : List (Option α)) (a : α), firstSome xs = some a → some a ∈ xs
  | [], a, h => by simp [firstSome] at h
  | none :: rest, a, h => by
    simp only [firstSome] at h
    exact List.mem_cons_of_mem _ (firstSome_mem rest a h)
  | some b :: _, a, h => by
    simp only [firstSome, Option.some.injEq] at h
    subst h
    exact List.mem_cons_self _ _

theorem digitOptions_spec (l : List Char) (x : List Char × List Char)
    (hx : x ∈ digitOptions l) : x.1 ++ x.2 = l := by
  unfold digitOptions at hx
  rw [List.mem_append, List.mem_append] at hx
  rcases hx with (h | h) | h
  all_goals
    rw [Option.mem_toList, Option.mem_def] at h
  · exact (splitDigits_spec 3 l x.1 x.2 (by rw [← h])).2.2.symm
  · exact (splitDigits_spec 2 l x.1 x.2 (by rw [← h])).2.2.symm
  · exact (splitDigits_spec 1 l x.1 x.2 (by rw [← h])).2.2.symm

theorem ccCandidates_spec (l : List Char) (x : List Char × List Char)
    (hx : x ∈ ccCandidates l) : x.1 ++ x.2 = l := by
  unfold ccCandidates at hx
  rw [List.mem_append, List.mem_append] at hx
  rcases hx with (h | h) | h
  · cases l with
    | nil => simp at h
    | cons c r =>
      simp only at h
      split at h
      next hc =>
        rw [List.mem_map] at h
        obtain ⟨dr, hdr, hval⟩ := h
        have hro := digitOptions_spec r dr hdr
        rw [← hval]
        simp only [List.cons_append]
        rw [hro]
      next => simp at h
  · exact digitOptions_spec l x h
  · simp only [List.mem_singleton] at h
    subst h
    simp

theorem phoneMatchAt_spec (l m r : List Char) (h : phoneMatchAt l = some (m, r)) :
    m ++ r = l ∧ 10 ≤ (m.filter Char.isDigit).length := by
  have hmem := firstSome_mem _ _ h
  rw [List.mem_map] at hmem
  obtain ⟨cr, hcr, heq⟩ := hmem
  cases hc : matchCore cr.2 with
  | none => rw [hc] at heq; simp at heq
  | some mr =>
    rw [hc] at heq
    simp only [Option.map_some', Option.some.injEq, Prod.mk.injEq] at heq
    obtain ⟨h1, h2⟩ := heq
    obtain ⟨happ, hdig⟩ := matchCore_spec cr.2 mr.1 mr.2 (by rw [hc])
    have hcc := ccCandidates_spec l cr hcr
    constructor
    · rw [← h1, ← h2, List.append_assoc, happ, hcc]
    · rw [← h1, List.filter_append, List.length_append]
      omega

theorem phoneScan_digits :
    ∀ (fuel : Nat) (l m : List Char), m ∈ phoneScan fuel l →
      10 ≤ (m.filter Char.isDigit).length := by
  intro fuel
  induction fuel with
  | zero => intro l m h; simp [phoneScan] at h
  | succ n ih =>
    intro l m h
    cases l with
    | nil => simp [phoneScan] at h
    | cons c rest =>
      simp only [phoneScan] at h
      split at h
      next m' r' heq =>
        rcases List.mem_cons.mp h with h1 | h1
        · subst h1; exact (phoneMatchAt_spec _ _ _ heq).2
        · exact ih r' m h1
      next => exact ih rest m h

theorem phoneMatchAll_digits (content m : List Char) (h : m ∈ phoneMatchAll content) :
    10 ≤ (m.filter Char.isDigit).length :=
  phoneScan_digits content.length content m h

theorem dedupKeepFirst_subset {α : Type} [DecidableEq α] :
    ∀ l : List α, dedupKeepFirst l ⊆ l
  | [] => by simp [dedupKeepFirst]
  | a :: l => by
    rw [dedupKeepFirst]
    intro x hx
    rcases List.mem_cons.mp hx with h | h
    · subst h; exact List.mem_cons_self _ _
    · exact List.mem_cons_of_mem _
        (List.mem_of_mem_filter (dedupKeepFirst_subset (l.filter (fun b => b ≠ a)) h))
termination_by l => l.length
decreasing_by
  simp only [List.length_cons]
  exact Nat.lt_succ_of_le (List.length_filter_le _ _)

theorem dedupKeepFirst_nodup {α : Type} [DecidableEq α] :
    ∀ l : List α, (dedupKeepFirst l).Nodup
  | [] => by simp [dedupKeepFirst]
  | a :: l => by
    rw [dedupKeepFirst]
    refine List.nodup_cons.mpr ⟨?_, dedupKeepFirst_nodup _⟩
    intro ha
    have hmem := dedupKeepFirst_subset _ ha
    have := List.of_mem_filter hmem
    simp at this
termination_by l => l.length
decreasing_by
  simp only [List.length_cons]
  exact Nat.lt_succ_of_le (List.length_filter_le _ _)

theorem emailMatchAt_ne_nil (l m r : List Char) (h : emailMatchAt l = some (m, r)) :
    m ≠ [] := by
  unfold emailMatchAt at h
  split at h
  next => simp at h
  next hne =>
    split at h
    next r2 heq =>
      split at h
      next => simp at h
      next dpart consumed hfind =>
        simp only [Option.some.injEq, Prod.mk.injEq] at h
        obtain ⟨h1, _⟩ := h
        rw [← h1]
        intro hcon
        rcases List.append_eq_nil.mp hcon with ⟨hl, _⟩
        rw [hl] at hne
        simp at hne
    next => simp at h

theorem emailScan_ne_nil :
    ∀ (fuel : Nat) (l m : List Char), m ∈ emailScan fuel l → m ≠ [] := by
  intro fuel
  induction fuel with
  | zero => intro l m h; simp [emailScan] at h
  | succ n ih =>
    intro l m h
    cases l with
    | nil => simp [emailScan] at h
    | cons c rest =>
      simp only [emailScan] at h
      split at h
      next m' r' heq =>
        rcases List.mem_cons.mp h with h1 | h1
        · subst h1; exact emailMatchAt_ne_nil _ _ _ heq
        · exact ih r' m h1
      next => exact ih rest m h

theorem emailMatchAll_filter_pos (content : List Char) :
    (emailMatchAll content).filter (fun m => 0 < m.length) = emailMatchAll content := by
  apply List.filter_eq_self.mpr
  intro m hm
  have := emailScan_ne_nil content.length content m hm
  simpa [List.length_pos] using this

/- Small bridging lemmas between the boolean source conditions and their
   propositional readings. -/

theorem eligibleB_iff (item : LinkedInContact) :
    eligibleB item = true ↔
      item.company.contactInfo = none ∧ item.company.website ≠ "" := by
  unfold eligibleB
  rw [Bool.and_eq_true, Option.isNone_iff_eq_none, bne_iff_ne]

theorem eligibleB_false_cases {item : LinkedInContact}
    (h : item.company.website = "" ∨ item.company.contactInfo ≠ none) :
    eligibleB item = false := by
  rcases Bool.eq_false_or_eq_true (eligibleB item) with hb | hb
  · obtain ⟨hci, hw⟩ := (eligibleB_iff item).mp hb
    rcases h with h | h
    · exact absurd h hw
    · exact absurd hci h
  · exact hb

theorem enrichRecord_skip {item : LinkedInContact}
    (res : String → Option ContactInfo) (h : eligibleB item = false) :
    enrichRecord res item = item := by
  unfold enrichRecord
  rw [h]
  simp

theorem nonEmptyCI_iff (ci : ContactInfo) :
    nonEmptyCI ci = true ↔ (ci.emails ≠ [] ∨ ci.phones ≠ []) := by
  unfold nonEmptyCI
  rw [Bool.or_eq_true]
  rw [decide_eq_true_eq, decide_eq_true_eq, List.length_pos, List.length_pos]

theorem map_eq_self_of {α : Type} (f : α → α) :
    ∀ l : List α, (∀ a ∈ l, f a = a) → l.map f = l
  | [], _ => rfl
  | a :: l, h => by
    rw [List.map_cons, h a (List.mem_cons_self a l),
      map_eq_self_of f l (fun b hb => h b (List.mem_cons_of_mem a hb))]

/-- C2: every state of the `Mutex` reachable by `acquire`/`release` steps
has at most one lock holder; the waiters woken by `release` (`granted`)
followed by the still-queued waiters reproduce the suspension log exactly,
so ownership is handed over in FIFO arrival order; and the `locked` flag
is `false` only when no waiter is queued. -/
theorem mutex_fifo_spec (s : MutexSys) (h : Reachable s) :
    s.holders.length ≤ 1
      ∧ s.granted ++ s.mtx.queue = s.suspended
      ∧ (s.mtx.locked = false → s.mtx.queue = []) := by
  obtain ⟨hfree, hlock, hlog⟩ := sysInv_reachable h
  refine ⟨?_, hlog.symm, fun hl => (hfree hl).1⟩
  cases hval : s.mtx.locked
  · rw [(hfree hval).2]
    simp
  · rw [hlock hval]

theorem mutex_fifo_spec_witness :
    (sysRelease (sysAcquire (sysAcquire initSys 1) 2) 1).holders.length ≤ 1
      ∧ (sysRelease (sysAcquire (sysAcquire initSys 1) 2) 1).granted
          ++ (sysRelease (sysAcquire (sysAcquire initSys 1) 2) 1).mtx.queue
          = (sysRelease (sysAcquire (sysAcquire initSys 1) 2) 1).suspended
      ∧ ((sysRelease (sysAcquire (sysAcquire initSys 1) 2) 1).mtx.locked = false →
          (sysRelease (sysAcquire (sysAcquire initSys 1) 2) 1).mtx.queue = []) :=
  mutex_fifo_spec _
    (Reachable.step
      (Reachable.step
        (Reachable.step Reachable.init (SysStep.acquire initSys 1))
        (SysStep.acquire (sysAcquire initSys 1) 2))
      (SysStep.release (sysAcquire (sysAcquire initSys 1) 2) 1 (by decide)))

/-- C10: in every reachable `Mutex` state, `locked = false` implies the
wait queue is empty, and consequently `release()` on a free mutex leaves
the mutex unchanged (it wakes nobody and re-assigns `locked = false`). -/
theorem release_free_noop (s : MutexSys) (h : Reachable s)
    (hl : s.mtx.locked = false) :
    s.mtx.queue = [] ∧ s.mtx.releaseStep = (s.mtx, none) := by
  obtain ⟨hfree, _, _⟩ := sysInv_reachable h
  obtain ⟨hq, _⟩ := hfree hl
  have hms : s.mtx = ⟨false, []⟩ := by
    cases hmm : s.mtx with
    | mk lk q =>
      rw [hmm] at hl hq
      simp only at hl hq
      rw [hl, hq]
  rw [hms]
  exact ⟨rfl, rfl⟩

theorem release_free_noop_witness :
    initSys.mtx.queue = [] ∧ initSys.mtx.releaseStep = (initSys.mtx, none) :=
  release_free_noop initSys Reachable.init rfl

/-- C3: for a non-empty URL whose fetch fails on every attempt,
`extractContactInfo` makes exactly `1 + MAX_RETRIES = 3` fetch attempts,
sleeps `RETRY_DELAY` before each of the `MAX_RETRIES` retries, and returns
the empty `ContactInfo` to its caller (the failure is absorbed: the
function is total and produces a value, not an exception). -/
theorem retry_bound_spec (fetch : Nat → Option (List Char))
    (parsed : Nat → Option (List (Option (List Char)))) (url : String)
    (hu : url ≠ "") (hf : ∀ n, fetch n = none) :
    extractContactInfo fetch parsed url
      = ⟨⟨[], []⟩, 1 + MAX_RETRIES, MAX_RETRIES * RETRY_DELAY⟩ := by
  have h2 : extractContactInfoGo fetch parsed url 2 = ⟨⟨[], []⟩, 1, 0⟩ := by
    rw [extractContactInfoGo]
    rw [if_neg hu, hf 2]
    simp [MAX_RETRIES]
  have h1 : extractContactInfoGo fetch parsed url 1 = ⟨⟨[], []⟩, 2, RETRY_DELAY⟩ := by
    rw [extractContactInfoGo]
    rw [if_neg hu, hf 1]
    simp [MAX_RETRIES, h2]
  unfold extractContactInfo
  rw [extractContactInfoGo]
  rw [if_neg hu, hf 0]
  simp [MAX_RETRIES, RETRY_DELAY, h1]

theorem retry_bound_spec_witness :
    extractContactInfo (fun _ => none) (fun _ => none) ("https://a.test")
      = ⟨⟨[], []⟩, 1 + MAX_RETRIES, MAX_RETRIES * RETRY_DELAY⟩ :=
  retry_bound_spec (fun _ => none) (fun _ => none) ("https://a.test")
    (by decide) (fun _ => rfl)

/-- C4: the queue seeded by `processJsonFile` contains exactly the records
whose `company.website` is non-empty and whose `contactInfo` is absent;
a record failing either condition is never selected and passes through the
enrichment run unchanged. -/
theorem eligibility_spec (data : List LinkedInContact) (item : LinkedInContact)
    (res : String → Option ContactInfo) :
    (item ∈ itemsToProcess data ↔
        item ∈ data ∧ item.company.contactInfo = none ∧ item.company.website ≠ "")
      ∧ (item.company.website = "" ∨ item.company.contactInfo ≠ none →
          enrichRecord res item = item) := by
  constructor
  · unfold itemsToProcess
    rw [List.mem_filter, eligibleB_iff]
  · intro h
    exact enrichRecord_skip res (eligibleB_false_cases h)

theorem eligibility_spec_witness :
    enrichRecord (fun _ => none) sampleNoSite = sampleNoSite :=
  (eligibility_spec [] sampleNoSite (fun _ => none)).2 (Or.inl rfl)

/-- C8: on a dataset in which every record already carries `contactInfo`,
the enrichment pass selects nothing, performs zero network fetches, and
returns the dataset unchanged (so the serialized file is only ever
rewritten with identical content, if at all). -/
theorem idempotence_spec (data : List LinkedInContact)
    (res : String → Option ContactInfo) (att : String → Nat)
    (h : ∀ item ∈ data, item.company.contactInfo ≠ none) :
    itemsToProcess data = [] ∧ runEnrichment res data = data
      ∧ networkOps att data = 0 := by
  have hitp : itemsToProcess data = [] := by
    unfold itemsToProcess
    rw [List.filter_eq_nil_iff]
    intro a ha
    rw [eligibleB_false_cases (Or.inr (h a ha))]
    simp
  refine ⟨hitp, ?_, ?_⟩
  · unfold runEnrichment
    exact map_eq_self_of _ data
      (fun a ha => enrichRecord_skip res (eligibleB_false_cases (Or.inr (h a ha))))
  · unfold networkOps
    rw [hitp]
    rfl

theorem idempotence_spec_witness :
    itemsToProcess [sampleEnriched] = []
      ∧ runEnrichment (fun _ => none) [sampleEnriched] = [sampleEnriched]
      ∧ networkOps (fun _ => 1) [sampleEnriched] = 0 :=
  idempotence_spec [sampleEnriched] (fun _ => none) (fun _ => 1) (by decide)

/-- C5: the phone pipeline keeps exactly those regex matches whose digit
content is at least ten characters — the code filters on the raw match
length, but every match of the pattern carries at least ten digits, so the
two filters coincide and the characterization in terms of the stripped
digit sequence holds — and the returned list is duplicate-free; in the CSV
exporter's `getPhones`, a candidate whose cleaned digit string has length
nine is discarded. -/
theorem phone_extraction_spec (content : List Char) :
    phonesFromContent content
        = dedupKeepFirst ((phoneMatchAll content).filter
            (fun m => 10 ≤ (m.filter Char.isDigit).length))
      ∧ (phonesFromContent content).Nodup
      ∧ (∀ s : String, (cleanPhone s).length = 9 → normalizePhone s = none) := by
  refine ⟨?_, dedupKeepFirst_nodup _, ?_⟩
  · have hall := phoneMatchAll_digits content
    have h1 : (phoneMatchAll content).filter (fun m => 10 ≤ m.length)
        = phoneMatchAll content := by
      apply List.filter_eq_self.mpr
      intro m hm
      have hd := hall m hm
      have hle : (m.filter Char.isDigit).length ≤ m.length :=
        List.length_filter_le _ _
      simpa using le_trans hd hle
    have h2 : (phoneMatchAll content).filter
        (fun m => 10 ≤ (m.filter Char.isDigit).length) = phoneMatchAll content := by
      apply List.filter_eq_self.mpr
      intro m hm
      simpa using hall m hm
    unfold phonesFromContent
    rw [h1, h2]
  · intro s h9
    unfold normalizePhone
    rw [h9]
    simp

theorem phone_extraction_spec_witness :
    normalizePhone ("555-123-456") = none :=
  (phone_extraction_spec []).2.2 ("555-123-456") (by decide)

/-- C6: the email pipeline returns the deduplicated addresses produced by
the structured address-list parser whenever that parser yields at least
one address, and falls back to the generic regex matches (deduplicated)
exactly when it yields none; either way the result has no duplicates. -/
theorem email_two_tier_spec (parsed : Option (List (Option (List Char))))
    (content : List Char) :
    (parserAddresses parsed ≠ [] →
        emailsFromContent parsed content = dedupKeepFirst (parserAddresses parsed))
      ∧ (parserAddresses parsed = [] →
        emailsFromContent parsed content = dedupKeepFirst (emailMatchAll content))
      ∧ (emailsFromContent parsed content).Nodup := by
  refine ⟨?_, ?_, dedupKeepFirst_nodup _⟩
  · intro h
    unfold emailsFromContent
    rw [if_neg]
    simp [List.isEmpty_iff, h]
  · intro h
    unfold emailsFromContent
    rw [if_pos (by simp [List.isEmpty_iff, h]), emailMatchAll_filter_pos]

theorem email_two_tier_spec_witness :
    emailsFromContent (some [some ("x@y.zz").toList]) []
      = dedupKeepFirst (parserAddresses (some [some ("x@y.zz").toList])) :=
  (email_two_tier_spec (some [some ("x@y.zz").toList]) []).1 (by decide)

/-- C9: if no pool session initializes, `processJsonFile` closes the
browser and returns before the dataset is ever read, written, or fetched
against; if at least one session initializes, the run proceeds and reads
the dataset. -/
theorem pool_abort_spec (initOk : Nat → Bool) (data : List LinkedInContact) :
    (initPool initOk = [] →
        processJsonFileTrace initOk data
            = ((List.range MAX_CONCURRENT_PAGES).map
                (fun i => Effect.initPage i (initOk i))) ++ [Effect.closeBrowser]
          ∧ Effect.readDataset ∉ processJsonFileTrace initOk data
          ∧ Effect.writeDataset ∉ processJsonFileTrace initOk data
          ∧ (∀ u, Effect.fetch u ∉ processJsonFileTrace initOk data)
          ∧ Effect.closeBrowser ∈ processJsonFileTrace initOk data)
      ∧ (initPool initOk ≠ [] →
          Effect.readDataset ∈ processJsonFileTrace initOk data) := by
  constructor
  · intro h
    have hempty : (initPool initOk).isEmpty = true := by simp [h]
    have htr : processJsonFileTrace initOk data
        = ((List.range MAX_CONCURRENT_PAGES).map
            (fun i => Effect.initPage i (initOk i))) ++ [Effect.closeBrowser] := by
      unfold processJsonFileTrace
      rw [if_pos hempty]
    refine ⟨htr, ?_, ?_, ?_, ?_⟩
    · rw [htr]
      simp
    · rw [htr]
      simp
    · intro u
      rw [htr]
      simp
    · rw [htr]
      simp
  · intro h
    have hempty : (initPool initOk).isEmpty = false := by
      simp [List.isEmpty_iff, h]
    unfold processJsonFileTrace
    rw [if_neg (by simp [hempty])]
    simp

theorem pool_abort_spec_witness :
    Effect.readDataset ∉ processJsonFileTrace (fun _ => false) [] :=
  ((pool_abort_spec (fun _ => false) []).1 (by decide)).2.1

/-- C1 counterexample: in the worker-pool variant the per-record caller
`processItem` stores and persists the extraction result unconditionally —
for the empty result it still sets `contactInfo = { emails: [], phones: [] }`
on a previously-unenriched record and writes the file, contradicting the
claim that an empty result leaves `contactInfo` absent with no write. -/
theorem persist_policy_cex :
    (processItemWorker ("2024-01-01T00:00:00Z") ⟨[], []⟩ sampleEligible).2 = true
      ∧ (processItemWorker ("2024-01-01T00:00:00Z") ⟨[], []⟩
          sampleEligible).1.company.contactInfo = some ⟨[], []⟩
      ∧ sampleEligible.company.contactInfo = none :=
  ⟨rfl, rfl, rfl⟩

/-- C1 (amended): in `processBatch` of `contactScraper.ts` the claimed
policy holds — `contactInfo` is merged and the dataset persisted exactly
when the enrichment outcome is a non-empty result on a record with a
website, and otherwise the record is left unchanged with no write — while
the worker-pool variant's `processItem` merges and persists every
extraction result, including empty ones. -/
theorem persist_policy_spec (outcome : Option ContactInfo)
    (item : LinkedInContact) (now : String) (ci : ContactInfo) :
    ((processBatchItem outcome item).2 = true ↔
        item.company.website ≠ ""
          ∧ ∃ c, outcome = some c ∧ (c.emails ≠ [] ∨ c.phones ≠ []))
      ∧ ((processBatchItem outcome item).2 = false →
          (processBatchItem outcome item).1 = item)
      ∧ (outcome = some ci → nonEmptyCI ci = true → item.company.website ≠ "" →
          (processBatchItem outcome item).1 = setCI item ci)
      ∧ ((processItemWorker now ci item).2 = true
          ∧ (processItemWorker now ci item).1.company.contactInfo = some ci) := by
  refine ⟨?_, ?_, ?_, rfl, rfl⟩
  · unfold processBatchItem
    by_cases hw : item.company.website = ""
    · rw [if_pos hw]
      simp [hw]
    · rw [if_neg hw]
      cases outcome with
      | none => simp [hw]
      | some c =>
        by_cases hne : nonEmptyCI c = true
        · simp only [hne, if_pos]
          simp only [true_iff, Option.some.injEq]
          exact ⟨hw, c, rfl, (nonEmptyCI_iff c).mp hne⟩
        · dsimp only
          rw [if_neg hne]
          simp only [Option.some.injEq]
          constructor
          · intro hcon
            exact absurd hcon (by simp)
          · rintro ⟨_, c', hc', hor⟩
            rw [← hc'] at hor
            exact absurd ((nonEmptyCI_iff c).mpr hor) hne
  · unfold processBatchItem
    by_cases hw : item.company.website = ""
    · rw [if_pos hw]
      intro
      rfl
    · rw [if_neg hw]
      cases outcome with
      | none => intro; rfl
      | some c =>
        by_cases hne : nonEmptyCI c = true
        · dsimp only
          rw [if_pos hne]
          intro hcon
          exact absurd hcon (by simp)
        · dsimp only
          rw [if_neg hne]
          intro
          rfl
  · intro ho hne hw
    subst ho
    unfold processBatchItem
    rw [if_neg hw]
    dsimp only
    rw [if_pos hne]

theorem persist_policy_spec_witness :
    (processBatchItem (some ⟨["a@b.co"], []⟩) sampleEligible).1
      = setCI sampleEligible ⟨["a@b.co"], []⟩ :=
  (persist_policy_spec (some ⟨["a@b.co"], []⟩) sampleEligible ("t")
      ⟨["a@b.co"], []⟩).2.2.1 rfl (by decide) (by decide)

/-- C7: session assignment of the batch dispatcher in `contactScraper.ts`.
Because the loop index advances by `MAX_CONCURRENT_PAGES`, the computed
page index `i % MAX_CONCURRENT_PAGES` is 0 for every batch: the records at
queue positions 0 and 1 belong to the same batch — hence run as
concurrently-executing enrichment tasks — and both are assigned session 0;
indeed every record of the run is assigned session 0. -/
theorem batch_session_sharing :
    sameBatch 0 1 ∧ pageIndexFor 0 = 0 ∧ pageIndexFor 1 = 0
      ∧ ∀ j, pageIndexFor j = 0 := by
  refine ⟨rfl, rfl, rfl, ?_⟩
  intro j
  unfold pageIndexFor batchStart
  exact Nat.mul_mod_left _ _
